import Mathlib

/-!
Formal model of `wradlib/verify.py`.

The source module provides two independent components:

* `PolarNeighbours` — builds a k-nearest-neighbour index from the planar
  centroids of a polar radar grid to a set of query points, and extracts
  neighbouring bin values from data arrays aligned with the polar grid.
* `ErrorMetrics` — filters a pair of observation/estimate arrays down to the
  mutually valid entries and computes scalar agreement statistics.

Embedding conventions:

* Float values are modelled as exact rationals (`ℚ`); a float array entry is
  `Option ℚ` with `none` standing for NaN / a missing value.
* `np.round(v, 2)` is modelled exactly: numpy rounds half to even, so we use
  `roundHalfEven` scaled by 100.
* `x ** 0.5` followed by `np.round(_, 2)` is modelled by `rnd2sqrt`, which
  computes the exactly rounded value of the real square root of a rational
  without leaving `ℚ` (the comparisons that decide the rounded value are all
  rational once squared).
* numpy arrays are `NDArray`: a row-major flat data list plus a shape list.
* The source stores the Euclidean distances reported by the spatial index;
  `PolarNeighbours` below stores the squared distances, which are exact in
  `ℚ` and order-isomorphic to the distances (the square root is monotone),
  so every ordering statement transfers verbatim.
-/

/-- Binary search step for the integer square root; `lo * lo ≤ n < hi * hi`
is maintained and the greatest `m` with `m * m ≤ n` is returned once the
interval collapses.  Fuel makes the recursion structural so that the kernel
can evaluate it. -/
def isqrtGo (fuel lo hi n : ℕ) : ℕ :=
  match fuel with
  | 0 => lo
  | fuel + 1 =>
    let mid := (lo + hi) / 2
    if mid = lo then lo
    else if mid * mid ≤ n then isqrtGo fuel mid hi n else isqrtGo fuel lo mid n

/-- Integer square root (greatest `m` with `m * m ≤ n`), kernel-evaluable. -/
def isqrt (n : ℕ) : ℕ := isqrtGo (n + 2) 0 (n + 2) n

/-- Rounding of a rational to the nearest integer with halves going to the
even neighbour; this is the rounding mode of `np.round`. -/
def roundHalfEven (q : ℚ) : ℤ :=
  if q - ⌊q⌋ < 1 / 2 then ⌊q⌋
  else if (1 : ℚ) / 2 < q - ⌊q⌋ then ⌊q⌋ + 1
  else if ⌊q⌋ % 2 = 0 then ⌊q⌋ else ⌊q⌋ + 1

/-- Model of `np.round(q, 2)`: round `100 * q` half to even, then divide. -/
def rnd2 (q : ℚ) : ℚ := (roundHalfEven (100 * q) : ℚ) / 100

/-- Model of `np.round(x ** 0.5, 2)` for a rational `x`, computed exactly.
For `x = a / b > 0` the floor of `100 * sqrt x` is `isqrt (10000 * a * b) / b`
(using `sqrt (a / b) = sqrt (a * b) / b` and nested floors), and the
half-to-even decision compares `100 * sqrt x` with `m + 1/2`, which after
squaring is the rational comparison of `40000 * x` with `(2 * m + 1) ^ 2`. -/
def rnd2sqrt (x : ℚ) : ℚ :=
  if x ≤ 0 then 0
  else
    let m : ℕ := isqrt (10000 * x.num.toNat * x.den) / x.den
    let k : ℤ :=
      if 40000 * x < (((2 * m + 1 : ℕ) : ℚ)) ^ 2 then (m : ℤ)
      else if (((2 * m + 1 : ℕ) : ℚ)) ^ 2 < 40000 * x then (m : ℤ) + 1
      else if m % 2 = 0 then (m : ℤ) else (m : ℤ) + 1
    (k : ℚ) / 100

/-- A rational that is representable with at most two decimal places, i.e. a
possible output of rounding to two decimals. -/
def isTwoDec (v : ℚ) : Prop := ∃ z : ℤ, v = (z : ℚ) / 100

/-- Model of `np.mean` on a 1-D array. -/
def meanQ (l : List ℚ) : ℚ := l.sum / l.length

/-- Model of `np.var` (population variance, the numpy default `ddof=0`). -/
def varQ (l : List ℚ) : ℚ := meanQ (l.map (fun a => (a - meanQ l) ^ 2))

/-- Sum of squared deviations from the mean (the unnormalised variance; the
normalisation cancels in the correlation coefficient). -/
def varS (l : List ℚ) : ℚ := (l.map (fun a => (a - meanQ l) ^ 2)).sum

/-- Sum of products of deviations from the means (unnormalised covariance). -/
def covS (xs ys : List ℚ) : ℚ :=
  (List.zipWith (fun a b => (a - meanQ xs) * (b - meanQ ys)) xs ys).sum

/-- Model of `np.round(np.corrcoef(xs, ys)[0, 1], 2)`.  The raw Pearson
coefficient is `covS / sqrt (varS xs * varS ys)`; its square is rational, so
the rounded value is `rnd2sqrt` of the square, with the sign of `covS`
(rounding half to even commutes with negation). -/
def pearsonRnd2 (xs ys : List ℚ) : ℚ :=
  let s := covS xs ys
  let p := varS xs * varS ys
  if s < 0 then -rnd2sqrt (s ^ 2 / p) else rnd2sqrt (s ^ 2 / p)

/-- Average ranks (1-based) of the entries of a list, ties receiving the mean
of the tied positions; this is the ranking used by `scipy.stats.spearmanr`. -/
def ranksQ (l : List ℚ) : List ℚ :=
  l.map (fun v =>
    ((l.countP (fun w => decide (w < v)) : ℕ) : ℚ) +
      (((l.countP (fun w => decide (w = v)) : ℕ) : ℚ) + 1) / 2)

/-- Modelled from the spec: `wradlib.util._idvalid` is referenced by
`ErrorMetrics.__init__` but its definition is not part of the given source.
Per the spec (section 4.2) a position is valid when the value is not
missing/NaN and, when a threshold is given, the value is at least the
threshold.  `none` is the embedding of NaN. -/
def validQ (v : Option ℚ) (minval : Option ℚ) : Bool :=
  match v with
  | none => false
  | some q =>
    match minval with
    | none => true
    | some m => decide (m ≤ q)

/-- Positions of the valid entries of `data`, counting from `i`. -/
def idvalidAux (data : List (Option ℚ)) (minval : Option ℚ) (i : ℕ) : List ℕ :=
  match data with
  | [] => []
  | v :: rest =>
    if validQ v minval then i :: idvalidAux rest minval (i + 1)
    else idvalidAux rest minval (i + 1)

/-- Ascending list of the positions of the valid entries of `data`. -/
def idvalid (data : List (Option ℚ)) (minval : Option ℚ) : List ℕ :=
  idvalidAux data minval 0

/-- Model of `np.intersect1d` on two strictly increasing integer lists: the
sorted, duplicate-free list of common values is obtained by filtering the
first list by membership in the second. -/
def intersectSorted (a b : List ℕ) : List ℕ := a.filter (fun i => decide (i ∈ b))

/-- The index set kept by `ErrorMetrics.__init__`: the intersection of the
individually valid position sets of the observations and the estimates. -/
def emIx (obs est : List (Option ℚ)) (minval : Option ℚ) : List ℕ :=
  intersectSorted (idvalid obs minval) (idvalid est minval)

/-- State of an `ErrorMetrics` instance after construction. -/
structure ErrorMetricsQ where
  obs : List ℚ
  est : List ℚ
  resids : List ℚ
  n : ℕ

/-- Model of `ErrorMetrics.__init__`: keep the entries with both valid
observations and estimates, store the restricted arrays, the residuals
`est - obs`, and the sample count. -/
def ErrorMetricsQ.init (obs est : List (Option ℚ)) (minval : Option ℚ) :
    ErrorMetricsQ :=
  let ix := emIx obs est minval
  let o := ix.map (fun i => (obs.getD i none).getD 0)
  let e := ix.map (fun i => (est.getD i none).getD 0)
  { obs := o, est := e, resids := List.zipWith (fun a b => a - b) e o,
    n := ix.length }

/-- Model of `ErrorMetrics.corr`: `np.round(np.corrcoef(obs, est)[0,1], 2)`. -/
def ErrorMetricsQ.corr (em : ErrorMetricsQ) : ℚ := pearsonRnd2 em.obs em.est

/-- Model of `ErrorMetrics.r2`: `np.round(np.corrcoef(obs, est)[0,1] ** 2, 2)`
(the unrounded coefficient is squared, then rounded); the square of the raw
Pearson coefficient is the rational `covS ^ 2 / (varS * varS)`. -/
def ErrorMetricsQ.r2 (em : ErrorMetricsQ) : ℚ :=
  rnd2 ((covS em.obs em.est) ^ 2 / (varS em.obs * varS em.est))

/-- Model of `ErrorMetrics.spearman`:
`np.round(stats.stats.spearmanr(obs, est)[0], 2)`, the rounded Pearson
coefficient of the average ranks. -/
def ErrorMetricsQ.spearman (em : ErrorMetricsQ) : ℚ :=
  pearsonRnd2 (ranksQ em.obs) (ranksQ em.est)

/-- Model of `ErrorMetrics.sse`: `np.round(np.sum(resids ** 2), 2)`. -/
def ErrorMetricsQ.sse (em : ErrorMetricsQ) : ℚ :=
  rnd2 ((em.resids.map (fun a => a ^ 2)).sum)

/-- Model of `ErrorMetrics.mse`: `np.round(sse() / n, 2)`. -/
def ErrorMetricsQ.mse (em : ErrorMetricsQ) : ℚ := rnd2 (em.sse / em.n)

/-- Model of `ErrorMetrics.rmse`: `np.round(mse() ** 0.5, 2)`. -/
def ErrorMetricsQ.rmse (em : ErrorMetricsQ) : ℚ := rnd2sqrt em.mse

/-- Model of `ErrorMetrics.nash`: `1 - (mse() / np.var(obs))`; note the
absence of a final `np.round` in the source. -/
def ErrorMetricsQ.nash (em : ErrorMetricsQ) : ℚ := 1 - em.mse / varQ em.obs

/-- Model of `ErrorMetrics.mas`: `np.round(np.mean(np.abs(resids)), 2)`. -/
def ErrorMetricsQ.mas (em : ErrorMetricsQ) : ℚ :=
  rnd2 (meanQ (em.resids.map (fun a => |a|)))

/-- Model of `ErrorMetrics.meanerr`: `np.round(np.mean(resids), 2)`. -/
def ErrorMetricsQ.meanerr (em : ErrorMetricsQ) : ℚ := rnd2 (meanQ em.resids)

/-- Model of `ErrorMetrics.ratio`: `np.round(np.mean(est / obs), 2)`.  When
some observation is zero the float division yields `inf` or `nan` and the
mean and the rounding propagate it; `none` is the embedding of any such
non-finite result. -/
def ErrorMetricsQ.ratio (em : ErrorMetricsQ) : Option ℚ :=
  if em.obs.all (fun o => decide (o ≠ 0)) then
    some (rnd2 (meanQ (List.zipWith (fun e o => e / o) em.est em.obs)))
  else none

/-- Squared Euclidean distance between two planar points. -/
def sqDist (p q : ℚ × ℚ) : ℚ := (p.1 - q.1) ^ 2 + (p.2 - q.2) ^ 2

/-- Insertion into a list of (squared distance, bin index) pairs sorted by
distance; equal distances keep the incumbent first, so the sort is stable
and the tie order is the deterministic order of the input. -/
def insertByDist (p : ℚ × ℕ) : List (ℚ × ℕ) → List (ℚ × ℕ)
  | [] => [p]
  | q :: qs => if p.1 < q.1 then p :: q :: qs else q :: insertByDist p qs

/-- Insertion sort of (squared distance, bin index) pairs by distance. -/
def sortByDist : List (ℚ × ℕ) → List (ℚ × ℕ)
  | [] => []
  | p :: ps => insertByDist p (sortByDist ps)

/-- Modelled from the spec: `scipy.spatial.KDTree` is the external spatial
index collaborator (spec section 6); `query(point, k)` returns, for the
query point, the `k` nearest data points in ascending distance order as
(distance, index) pairs.  Here the pairs carry the squared distance and the
flattened bin index, obtained by sorting all bins by distance to the query
point and taking the first `k`. -/
def knnQuery (pts : List (ℚ × ℚ)) (q : ℚ × ℚ) (k : ℕ) : List (ℚ × ℕ) :=
  (sortByDist ((List.range pts.length).map
    (fun i => (sqDist (pts.getD i (0, 0)) q, i)))).take k

/-- State of a `PolarNeighbours` instance after construction: the grid
description, the query coordinates, the flattened centroid coordinates and
the stored distance and index matrices. -/
structure PolarNeighbours where
  nnear : ℕ
  az : List ℚ
  r : List ℚ
  x : List ℚ
  y : List ℚ
  binx : List ℚ
  biny : List ℚ
  distSq : List (List ℚ)
  ix : List (List ℕ)

/-- Model of `PolarNeighbours.__init__`.  The source derives the flattened
centroid coordinates from `(r, az, sitecoords, projstr)` through the external
georeferencing collaborator (`georef.polar2centroids` / `georef.project`,
not part of the given source); modelled from the spec, those flattened
row-major centroid coordinate arrays are the parameters `binx` and `biny`
here.  The constructor pairs the coordinate arrays positionally (Python 2
`zip`, which silently truncates to the shorter array), builds the spatial
index over the centroid pairs and queries it once per query point; it
performs no validation of the input lengths or of `nnear`. -/
def PolarNeighbours.init (r az binx biny x y : List ℚ) (nnear : ℕ) :
    PolarNeighbours :=
  let pts := binx.zip biny
  let qs := x.zip y
  { nnear := nnear, az := az, r := r, x := x, y := y, binx := binx,
    biny := biny,
    distSq := qs.map (fun q => (knnQuery pts q nnear).map Prod.fst),
    ix := qs.map (fun q => (knnQuery pts q nnear).map Prod.snd) }

/-- A numpy array: a shape and the row-major flattened data. -/
structure NDArray where
  shape : List ℕ
  data : List ℚ

/-- Model of `PolarNeighbours.extract`.  The two `assert` statements of the
source are the two error branches.  On success the trailing two dimensions
are flattened into one of size `az.length * r.length` (row-major, so bin
`(a, rg)` sits at flat offset `a * r.length + rg` inside its slice) and the
flattened axis is gathered through the stored index matrix, giving an array
of shape `leading ++ [number of query points, nnear]`. -/
def PolarNeighbours.extract (pn : PolarNeighbours) (vals : NDArray) :
    Except String NDArray :=
  if vals.shape.length < 2 then
    Except.error "vals array should at least contain an azimuth and a range dimension"
  else if vals.shape.drop (vals.shape.length - 2) ≠ [pn.az.length, pn.r.length] then
    Except.error "shape of vals does not correspond with the range and azimuths"
  else
    let nbin := pn.az.length * pn.r.length
    let lead := vals.shape.take (vals.shape.length - 2)
    Except.ok
      { shape := lead ++ [pn.ix.length, pn.nnear],
        data := (List.range lead.prod).flatMap (fun l =>
          pn.ix.flatMap (fun row =>
            row.map (fun t => vals.data.getD (l * nbin + t) 0))) }

/-! Helper lemmas about lists, the insertion sort and the validity filter. -/

theorem getD_map_of_lt {α β : Type} (f : α → β) (l : List α) (i : ℕ)
    (hi : i < l.length) (d : α) (e : β) :
    (l.map f).getD i e = f (l.getD i d) := by
  rw [List.getD_eq_getElem _ _ (by simpa using hi), List.getD_eq_getElem _ _ hi,
    List.getElem_map]

theorem length_flatMap_const {α β : Type} (ls : List α) (g : α → List β) (B : ℕ)
    (h : ∀ a ∈ ls, (g a).length = B) :
    (ls.flatMap g).length = ls.length * B := by
  induction ls with
  | nil => simp
  | cons a as ih =>
    simp only [List.flatMap_cons, List.length_append, List.length_cons]
    rw [h a (by simp), ih (fun b hb => h b (by simp [hb]))]
    ring

theorem getD_flatMap_const {α β : Type} (ls : List α) (g : α → List β) (B : ℕ)
    (h : ∀ a ∈ ls, (g a).length = B) (i t : ℕ) (hi : i < ls.length) (ht : t < B)
    (d : α) (e : β) :
    (ls.flatMap g).getD (i * B + t) e = (g (ls.getD i d)).getD t e := by
  induction ls generalizing i with
  | nil => simp at hi
  | cons a as ih =>
    cases i with
    | zero =>
      simp only [List.flatMap_cons, Nat.zero_mul, Nat.zero_add,
        List.getD_cons_zero]
      exact List.getD_append _ _ _ _ (by rw [h a (by simp)]; exact ht)
    | succ i =>
      have hB : (g a).length = B := h a (by simp)
      have hpos : (i + 1) * B + t = (g a).length + (i * B + t) := by
        rw [hB]; ring
      simp only [List.flatMap_cons]
      rw [hpos, List.getD_append_right _ _ _ _ (by omega)]
      have : (g a).length + (i * B + t) - (g a).length = i * B + t := by omega
      rw [this]
      exact ih (fun b hb => h b (by simp [hb])) i (by simpa using hi)

theorem length_insertByDist (p : ℚ × ℕ) (l : List (ℚ × ℕ)) :
    (insertByDist p l).length = l.length + 1 := by
  induction l with
  | nil => rfl
  | cons q qs ih =>
    by_cases h : p.1 < q.1 <;> simp [insertByDist, h, ih]

theorem length_sortByDist (l : List (ℚ × ℕ)) :
    (sortByDist l).length = l.length := by
  induction l with
  | nil => rfl
  | cons p ps ih => simp [sortByDist, length_insertByDist, ih]

theorem mem_insertByDist {a p : ℚ × ℕ} {l : List (ℚ × ℕ)} :
    a ∈ insertByDist p l ↔ a = p ∨ a ∈ l := by
  induction l with
  | nil => simp [insertByDist]
  | cons q qs ih =>
    by_cases h : p.1 < q.1
    · simp [insertByDist, h]
    · simp only [insertByDist, if_neg h, List.mem_cons, ih]
      tauto

theorem mem_sortByDist {a : ℚ × ℕ} {l : List (ℚ × ℕ)} :
    a ∈ sortByDist l ↔ a ∈ l := by
  induction l with
  | nil => simp [sortByDist]
  | cons p ps ih => simp [sortByDist, mem_insertByDist, ih]

theorem sorted_insertByDist (p : ℚ × ℕ) (l : List (ℚ × ℕ))
    (h : List.Pairwise (fun a b => a.1 ≤ b.1) l) :
    List.Pairwise (fun a b => a.1 ≤ b.1) (insertByDist p l) := by
  induction l with
  | nil => simp [insertByDist]
  | cons q qs ih =>
    rcases List.pairwise_cons.mp h with ⟨hq, hqs⟩
    by_cases hpq : p.1 < q.1
    · rw [insertByDist, if_pos hpq]
      refine List.pairwise_cons.mpr ⟨?_, h⟩
      intro b hb
      rcases List.mem_cons.mp hb with hb | hb
      · exact le_of_lt (hb ▸ hpq)
      · exact le_of_lt (lt_of_lt_of_le hpq (hq b hb))
    · rw [insertByDist, if_neg hpq]
      refine List.pairwise_cons.mpr ⟨?_, ih hqs⟩
      intro b hb
      rcases mem_insertByDist.mp hb with hb | hb
      · exact hb ▸ le_of_not_lt hpq
      · exact hq b hb

theorem sorted_sortByDist (l : List (ℚ × ℕ)) :
    List.Pairwise (fun a b => a.1 ≤ b.1) (sortByDist l) := by
  induction l with
  | nil => simp [sortByDist]
  | cons p ps ih => exact sorted_insertByDist p _ ih

theorem length_knnQuery (pts : List (ℚ × ℚ)) (q : ℚ × ℚ) (k : ℕ) :
    (knnQuery pts q k).length = min k pts.length := by
  simp [knnQuery, length_sortByDist]

theorem mem_knnQuery {pts : List (ℚ × ℚ)} {q : ℚ × ℚ} {k : ℕ} {e : ℚ × ℕ}
    (he : e ∈ knnQuery pts q k) :
    e.2 < pts.length ∧ e.1 = sqDist (pts.getD e.2 (0, 0)) q := by
  have h1 : e ∈ sortByDist ((List.range pts.length).map
      (fun i => (sqDist (pts.getD i (0, 0)) q, i))) := List.take_subset _ _ he
  rcases List.mem_map.mp (mem_sortByDist.mp h1) with ⟨i, hi, hie⟩
  rcases hie
  exact ⟨List.mem_range.mp hi, rfl⟩

theorem sorted_knnQuery (pts : List (ℚ × ℚ)) (q : ℚ × ℚ) (k : ℕ) :
    List.Pairwise (fun a b => a.1 ≤ b.1) (knnQuery pts q k) :=
  List.Pairwise.sublist (List.take_sublist _ _) (sorted_sortByDist _)

theorem mem_idvalidAux {data : List (Option ℚ)} {mv : Option ℚ} {s i : ℕ} :
    i ∈ idvalidAux data mv s ↔
      ∃ j, j < data.length ∧ i = s + j ∧ validQ (data.getD j none) mv = true := by
  induction data generalizing s with
  | nil => simp [idvalidAux]
  | cons v rest ih =>
    by_cases hv : validQ v mv
    · simp only [idvalidAux, if_pos hv, List.mem_cons, ih]
      constructor
      · rintro (rfl | ⟨j, hj, rfl, hval⟩)
        · exact ⟨0, by simp, by simp, by simpa using hv⟩
        · exact ⟨j + 1, by simpa using hj, by omega, by simpa using hval⟩
      · rintro ⟨j, hj, rfl, hval⟩
        cases j with
        | zero => left; simp
        | succ j =>
          right
          exact ⟨j, by simpa using hj, by omega, by simpa using hval⟩
    · simp only [idvalidAux, if_neg hv, ih]
      constructor
      · rintro ⟨j, hj, rfl, hval⟩
        exact ⟨j + 1, by simpa using hj, by omega, by simpa using hval⟩
      · rintro ⟨j, hj, rfl, hval⟩
        cases j with
        | zero => exact absurd (by simpa using hval) hv
        | succ j =>
          exact ⟨j, by simpa using hj, by omega, by simpa using hval⟩

theorem mem_idvalid {data : List (Option ℚ)} {mv : Option ℚ} {i : ℕ} :
    i ∈ idvalid data mv ↔
      i < data.length ∧ validQ (data.getD i none) mv = true := by
  rw [idvalid, mem_idvalidAux]
  constructor
  · rintro ⟨j, hj, rfl, hval⟩
    exact ⟨by simpa using hj, by simpa using hval⟩
  · rintro ⟨hi, hval⟩
    exact ⟨i, hi, by omega, hval⟩

theorem sorted_idvalidAux (data : List (Option ℚ)) (mv : Option ℚ) (s : ℕ) :
    List.Pairwise (· < ·) (idvalidAux data mv s) := by
  induction data generalizing s with
  | nil => simp [idvalidAux]
  | cons v rest ih =>
    by_cases hv : validQ v mv
    · rw [idvalidAux, if_pos hv]
      refine List.pairwise_cons.mpr ⟨?_, ih (s + 1)⟩
      intro b hb
      rcases mem_idvalidAux.mp hb with ⟨j, _, rfl, _⟩
      omega
    · rw [idvalidAux, if_neg hv]
      exact ih (s + 1)

theorem sorted_emIx (obs est : List (Option ℚ)) (mv : Option ℚ) :
    List.Pairwise (· < ·) (emIx obs est mv) :=
  List.Pairwise.sublist (List.filter_sublist _) (sorted_idvalidAux obs mv 0)

theorem isTwoDec_rnd2 (q : ℚ) : isTwoDec (rnd2 q) := ⟨roundHalfEven (100 * q), rfl⟩

theorem isTwoDec_rnd2sqrt (x : ℚ) : isTwoDec (rnd2sqrt x) := by
  rw [rnd2sqrt]
  split
  · exact ⟨0, by norm_num⟩
  · exact ⟨_, rfl⟩

theorem isTwoDec_neg {v : ℚ} (h : isTwoDec v) : isTwoDec (-v) := by
  rcases h with ⟨z, rfl⟩
  exact ⟨-z, by push_cast; ring⟩

theorem isTwoDec_pearsonRnd2 (xs ys : List ℚ) : isTwoDec (pearsonRnd2 xs ys) := by
  rw [pearsonRnd2]
  split
  · exact isTwoDec_neg (isTwoDec_rnd2sqrt _)
  · exact isTwoDec_rnd2sqrt _

theorem rnd2_zero : rnd2 0 = 0 := by norm_num [rnd2, roundHalfEven]

theorem rnd2_one : rnd2 1 = 1 := by norm_num [rnd2, roundHalfEven]

theorem rnd2sqrt_zero : rnd2sqrt 0 = 0 := by norm_num [rnd2sqrt]

theorem rnd2sqrt_one : rnd2sqrt 1 = 1 := by
  have h : isqrt 10000 = 100 := by decide
  norm_num [rnd2sqrt, h]

theorem zipWith_self {α β : Type} (f : α → α → β) (l : List α) :
    List.zipWith f l l = l.map (fun a => f a a) := by
  induction l with
  | nil => rfl
  | cons a as ih => simp [ih]

theorem varS_nonneg (l : List ℚ) : 0 ≤ varS l := by
  apply List.sum_nonneg
  intro x hx
  rcases List.mem_map.mp hx with ⟨a, _, rfl⟩
  positivity

theorem varQ_eq_varS_div (l : List ℚ) : varQ l = varS l / l.length := by
  simp [varQ, varS, meanQ]

theorem varS_pos_of_varQ_pos {l : List ℚ} (h : 0 < varQ l) : 0 < varS l := by
  rcases lt_or_eq_of_le (varS_nonneg l) with hs | hs
  · exact hs
  · exfalso
    rw [varQ_eq_varS_div, ← hs, zero_div] at h
    exact lt_irrefl 0 h

theorem init_ix_length (r az binx biny x y : List ℚ) (k : ℕ) :
    (PolarNeighbours.init r az binx biny x y k).ix.length =
      min x.length y.length := by
  simp [PolarNeighbours.init]

theorem init_distSq_length (r az binx biny x y : List ℚ) (k : ℕ) :
    (PolarNeighbours.init r az binx biny x y k).distSq.length =
      min x.length y.length := by
  simp [PolarNeighbours.init]

theorem init_ix_row_length (r az binx biny x y : List ℚ) (k : ℕ)
    {row : List ℕ} (hrow : row ∈ (PolarNeighbours.init r az binx biny x y k).ix) :
    row.length = min k (min binx.length biny.length) := by
  rcases List.mem_map.mp hrow with ⟨q, _, rfl⟩
  simp [length_knnQuery]

theorem init_ix_getD (r az binx biny x y : List ℚ) (k i : ℕ)
    (hi : i < min x.length y.length) :
    (PolarNeighbours.init r az binx biny x y k).ix.getD i [] =
      (knnQuery (binx.zip biny) ((x.zip y).getD i (0, 0)) k).map Prod.snd := by
  rw [PolarNeighbours.init]
  exact getD_map_of_lt _ _ _ (by simpa using hi) _ _

theorem init_distSq_getD (r az binx biny x y : List ℚ) (k i : ℕ)
    (hi : i < min x.length y.length) :
    (PolarNeighbours.init r az binx biny x y k).distSq.getD i [] =
      (knnQuery (binx.zip biny) ((x.zip y).getD i (0, 0)) k).map Prod.fst := by
  rw [PolarNeighbours.init]
  exact getD_map_of_lt _ _ _ (by simpa using hi) _ _

theorem zipWith_sub_self (l : List ℚ) :
    List.zipWith (fun a b => a - b) l l = l.map (fun _ => (0 : ℚ)) := by
  induction l with
  | nil => rfl
  | cons a as ih => simp [ih]

theorem covS_self (l : List ℚ) : covS l l = varS l := by
  rw [covS, varS, zipWith_self]
  congr 1
  apply List.map_congr_left
  intro a _
  ring

theorem init_resids (obs est : List (Option ℚ)) (mv : Option ℚ) :
    (ErrorMetricsQ.init obs est mv).resids =
      List.zipWith (fun a b => a - b) (ErrorMetricsQ.init obs est mv).est
        (ErrorMetricsQ.init obs est mv).obs := rfl

theorem init_lengths (obs est : List (Option ℚ)) (mv : Option ℚ) :
    (ErrorMetricsQ.init obs est mv).obs.length = (ErrorMetricsQ.init obs est mv).n ∧
    (ErrorMetricsQ.init obs est mv).est.length = (ErrorMetricsQ.init obs est mv).n := by
  simp [ErrorMetricsQ.init]

/-- C6: construction of the error metrics keeps exactly the positions that
are valid in both arrays — the strictly increasing (sorted, duplicate-free)
intersection of the two individually valid position sets — stores the
restrictions of the observation and estimate arrays to those positions, and
sets `n` to the size of the intersection; in particular the two concrete
examples from the spec both give `n = 2`. -/
theorem verify_C6 :
    (∀ (obs est : List (Option ℚ)) (mv : Option ℚ) (i : ℕ),
      i ∈ emIx obs est mv ↔
        (i < obs.length ∧ i < est.length ∧
          validQ (obs.getD i none) mv = true ∧
          validQ (est.getD i none) mv = true)) ∧
    (∀ (obs est : List (Option ℚ)) (mv : Option ℚ),
      List.Pairwise (· < ·) (emIx obs est mv)) ∧
    (∀ (obs est : List (Option ℚ)) (mv : Option ℚ),
      (ErrorMetricsQ.init obs est mv).n = (emIx obs est mv).length ∧
      (ErrorMetricsQ.init obs est mv).obs =
        (emIx obs est mv).map (fun i => (obs.getD i none).getD 0) ∧
      (ErrorMetricsQ.init obs est mv).est =
        (emIx obs est mv).map (fun i => (est.getD i none).getD 0)) ∧
    (ErrorMetricsQ.init [some 1, some 2, some 3, none]
      [some 1, some 2, none, some 4] none).n = 2 ∧
    (ErrorMetricsQ.init [some 0, some 10, some 20]
      [some 0, some 10, some 20] (some 5)).n = 2 := by
  refine ⟨?_, ?_, ?_, by decide, by decide⟩
  · intro obs est mv i
    rw [emIx, intersectSorted, List.mem_filter]
    simp only [decide_eq_true_eq, mem_idvalid]
    tauto
  · intro obs est mv
    exact sorted_emIx obs est mv
  · intro obs est mv
    exact ⟨rfl, rfl, rfl⟩

/-- C7 counterexample: with `obs = [0, 1, 2]`, `est = [0, 0, 0]` and no
threshold, `nash` evaluates to `-301/200 = -1.505`, which is not a value
rounded to two decimal places; so not every metric method returns its value
rounded to two decimals, refuting the claim as stated. -/
theorem verify_C7_counterexample :
    (ErrorMetricsQ.init [some 0, some 1, some 2] [some 0, some 0, some 0]
        none).nash = -301 / 200 ∧
    ¬ isTwoDec ((ErrorMetricsQ.init [some 0, some 1, some 2]
        [some 0, some 0, some 0] none).nash) := by
  have hval : (ErrorMetricsQ.init [some 0, some 1, some 2]
      [some 0, some 0, some 0] none).nash = -301 / 200 := by
    simp only [ErrorMetricsQ.nash, ErrorMetricsQ.mse, ErrorMetricsQ.sse,
      ErrorMetricsQ.init, emIx, intersectSorted, idvalid, idvalidAux, validQ,
      varQ, meanQ]
    norm_num [rnd2, roundHalfEven]
  refine ⟨hval, ?_⟩
  rw [hval]
  rintro ⟨z, hz⟩
  have hzq : (z : ℚ) = -301 / 2 := by
    field_simp at hz
    linarith
  have : (2 : ℚ) * z = -301 := by rw [hzq]; ring
  have hint : (2 : ℤ) * z = -301 := by exact_mod_cast this
  omega

/-- C7 amended: whenever the metric values are defined (positive sample
count, nonzero variances for the correlation-based metrics, no zero
observation for `ratio`), every metric method except `nash` returns a value
representable with two decimal places (it is a rounded value), while `nash`
returns `1 - mse / var(obs)` with the rounded `mse` but no final rounding of
its own. -/
theorem verify_C7_amended (em : ErrorMetricsQ)
    (hn : 0 < em.n)
    (hp : 0 < varS em.obs * varS em.est)
    (hpr : 0 < varS (ranksQ em.obs) * varS (ranksQ em.est))
    (hzero : ∀ o ∈ em.obs, o ≠ 0) :
    isTwoDec em.corr ∧ isTwoDec em.r2 ∧ isTwoDec em.spearman ∧
    isTwoDec em.sse ∧ isTwoDec em.mse ∧ isTwoDec em.rmse ∧
    isTwoDec em.mas ∧ isTwoDec em.meanerr ∧
    (∃ v, em.ratio = some v ∧ isTwoDec v) ∧
    em.nash = 1 - em.mse / varQ em.obs := by
  refine ⟨isTwoDec_pearsonRnd2 _ _, isTwoDec_rnd2 _, isTwoDec_pearsonRnd2 _ _,
    isTwoDec_rnd2 _, isTwoDec_rnd2 _, isTwoDec_rnd2sqrt _, isTwoDec_rnd2 _,
    isTwoDec_rnd2 _, ?_, rfl⟩
  have hall : em.obs.all (fun o => decide (o ≠ 0)) = true := by
    rw [List.all_eq_true]
    intro o ho
    exact decide_eq_true (hzero o ho)
  rw [ErrorMetricsQ.ratio, if_pos hall]
  exact ⟨_, rfl, isTwoDec_rnd2 _⟩

theorem verify_C7_amended_witness :
    isTwoDec (ErrorMetricsQ.corr ⟨[1, 2, 4], [1, 3, 2], [0, 1, -2], 3⟩) ∧
    isTwoDec (ErrorMetricsQ.r2 ⟨[1, 2, 4], [1, 3, 2], [0, 1, -2], 3⟩) ∧
    isTwoDec (ErrorMetricsQ.spearman ⟨[1, 2, 4], [1, 3, 2], [0, 1, -2], 3⟩) ∧
    isTwoDec (ErrorMetricsQ.sse ⟨[1, 2, 4], [1, 3, 2], [0, 1, -2], 3⟩) ∧
    isTwoDec (ErrorMetricsQ.mse ⟨[1, 2, 4], [1, 3, 2], [0, 1, -2], 3⟩) ∧
    isTwoDec (ErrorMetricsQ.rmse ⟨[1, 2, 4], [1, 3, 2], [0, 1, -2], 3⟩) ∧
    isTwoDec (ErrorMetricsQ.mas ⟨[1, 2, 4], [1, 3, 2], [0, 1, -2], 3⟩) ∧
    isTwoDec (ErrorMetricsQ.meanerr ⟨[1, 2, 4], [1, 3, 2], [0, 1, -2], 3⟩) ∧
    (∃ v, ErrorMetricsQ.ratio ⟨[1, 2, 4], [1, 3, 2], [0, 1, -2], 3⟩ = some v ∧
      isTwoDec v) ∧
    ErrorMetricsQ.nash ⟨[1, 2, 4], [1, 3, 2], [0, 1, -2], 3⟩ =
      1 - ErrorMetricsQ.mse ⟨[1, 2, 4], [1, 3, 2], [0, 1, -2], 3⟩ /
        varQ (ErrorMetricsQ.obs ⟨[1, 2, 4], [1, 3, 2], [0, 1, -2], 3⟩) :=
  verify_C7_amended ⟨[1, 2, 4], [1, 3, 2], [0, 1, -2], 3⟩ (by decide)
    (by norm_num [varS, meanQ])
    (by norm_num [varS, meanQ, ranksQ, List.countP, List.countP.go])
    (by intro o ho; fin_cases ho <;> norm_num)

/-- C8: for an `ErrorMetrics` instance whose filtered observation and
estimate arrays are identical, with at least two entries and nonzero
variance of the observations, the self-comparison identities hold:
`corr = 1`, `r2 = 1`, `rmse = 0`, `meanerr = 0`, `sse = 0`, `nash = 1`. -/
theorem verify_C8 (obs est : List (Option ℚ)) (mv : Option ℚ)
    (em : ErrorMetricsQ) (hem : em = ErrorMetricsQ.init obs est mv)
    (heq : em.est = em.obs) (hn : 2 ≤ em.n) (hv : 0 < varQ em.obs) :
    em.corr = 1 ∧ em.r2 = 1 ∧ em.rmse = 0 ∧ em.meanerr = 0 ∧
      em.sse = 0 ∧ em.nash = 1 := by
  have hres : em.resids = em.obs.map (fun _ => (0 : ℚ)) := by
    rw [hem, init_resids, ← hem, heq, zipWith_sub_self]
  have hsq : (em.resids.map (fun a => a ^ 2)).sum = 0 := by
    apply List.sum_eq_zero
    intro x hx
    rcases List.mem_map.mp hx with ⟨a, ha, rfl⟩
    rw [hres] at ha
    rcases List.mem_map.mp ha with ⟨b, hb, rfl⟩
    norm_num
  have hsse : em.sse = 0 := by
    rw [ErrorMetricsQ.sse, hsq, rnd2_zero]
  have hmse : em.mse = 0 := by
    rw [ErrorMetricsQ.mse, hsse, zero_div, rnd2_zero]
  have hs : 0 < varS em.obs := varS_pos_of_varQ_pos hv
  have hcorr : em.corr = 1 := by
    rw [ErrorMetricsQ.corr, pearsonRnd2]
    simp only [heq, covS_self]
    rw [if_neg (not_lt.mpr (le_of_lt hs))]
    rw [sq, div_self (mul_ne_zero (ne_of_gt hs) (ne_of_gt hs)), rnd2sqrt_one]
  have hr2 : em.r2 = 1 := by
    rw [ErrorMetricsQ.r2, heq, covS_self, sq,
      div_self (mul_ne_zero (ne_of_gt hs) (ne_of_gt hs)), rnd2_one]
  have hrmse : em.rmse = 0 := by
    rw [ErrorMetricsQ.rmse, hmse, rnd2sqrt_zero]
  have hmeanerr : em.meanerr = 0 := by
    have hsum : em.resids.sum = 0 := by
      apply List.sum_eq_zero
      intro x hx
      rw [hres] at hx
      rcases List.mem_map.mp hx with ⟨a, _, rfl⟩
      rfl
    rw [ErrorMetricsQ.meanerr, meanQ, hsum, zero_div, rnd2_zero]
  have hnash : em.nash = 1 := by
    rw [ErrorMetricsQ.nash, hmse, zero_div, sub_zero]
  exact ⟨hcorr, hr2, hrmse, hmeanerr, hsse, hnash⟩

theorem verify_C8_witness :
    (ErrorMetricsQ.init [some 0, some 1, some 2] [some 0, some 1, some 2]
        none).corr = 1 ∧
    (ErrorMetricsQ.init [some 0, some 1, some 2] [some 0, some 1, some 2]
        none).r2 = 1 ∧
    (ErrorMetricsQ.init [some 0, some 1, some 2] [some 0, some 1, some 2]
        none).rmse = 0 ∧
    (ErrorMetricsQ.init [some 0, some 1, some 2] [some 0, some 1, some 2]
        none).meanerr = 0 ∧
    (ErrorMetricsQ.init [some 0, some 1, some 2] [some 0, some 1, some 2]
        none).sse = 0 ∧
    (ErrorMetricsQ.init [some 0, some 1, some 2] [some 0, some 1, some 2]
        none).nash = 1 :=
  verify_C8 [some 0, some 1, some 2] [some 0, some 1, some 2] none _ rfl rfl
    (by decide)
    (by norm_num [ErrorMetricsQ.init, emIx, intersectSorted, idvalid,
      idvalidAux, validQ, varQ, meanQ])

/-- C9: `ratio` is the rounded mean of the element-wise quotients `est / obs`
over the filtered samples, and it yields a non-finite result (modelled as
`none`) exactly when some filtered observation is zero — it never silently
returns a finite number in that case. -/
theorem verify_C9 (obs est : List (Option ℚ)) (mv : Option ℚ)
    (em : ErrorMetricsQ) (hem : em = ErrorMetricsQ.init obs est mv) :
    (em.ratio = none ↔ ∃ o ∈ em.obs, o = 0) ∧
    (∀ v, em.ratio = some v →
      v = rnd2 ((List.zipWith (fun e o => e / o) em.est em.obs).sum / em.n)) := by
  have hlen : (List.zipWith (fun e o => e / o) em.est em.obs).length = em.n := by
    rw [hem, List.length_zipWith, (init_lengths obs est mv).1,
      (init_lengths obs est mv).2, min_self]
  constructor
  · rw [ErrorMetricsQ.ratio]
    by_cases hall : em.obs.all (fun o => decide (o ≠ 0)) = true
    · rw [if_pos hall]
      simp only [List.all_eq_true, decide_eq_true_eq] at hall
      constructor
      · intro h; exact absurd h (by simp)
      · rintro ⟨o, ho, rfl⟩
        exact absurd rfl (hall 0 ho)
    · rw [if_neg hall]
      simp only [List.all_eq_true, decide_eq_true_eq, not_forall] at hall
      rcases hall with ⟨o, ho, hval⟩
      simp only [not_not] at hval
      exact ⟨fun _ => ⟨o, ho, hval⟩, fun _ => rfl⟩
  · intro v hv
    rw [ErrorMetricsQ.ratio] at hv
    by_cases hall : em.obs.all (fun o => decide (o ≠ 0)) = true
    · rw [if_pos hall] at hv
      have := Option.some.inj hv
      rw [← this, meanQ, hlen]
    · rw [if_neg hall] at hv
      exact absurd hv (by simp)

theorem verify_C9_witness :
    (ErrorMetricsQ.init [some 1, some 0] [some 2, some 4] none).ratio =
      none :=
  ((verify_C9 [some 1, some 0] [some 2, some 4] none _ rfl).1).mpr
    ⟨0, by decide, rfl⟩

theorem init_az (r az binx biny x y : List ℚ) (k : ℕ) :
    (PolarNeighbours.init r az binx biny x y k).az = az := rfl

theorem init_r (r az binx biny x y : List ℚ) (k : ℕ) :
    (PolarNeighbours.init r az binx biny x y k).r = r := rfl

theorem init_nnear (r az binx biny x y : List ℚ) (k : ℕ) :
    (PolarNeighbours.init r az binx biny x y k).nnear = k := rfl

theorem extract_ok (pn : PolarNeighbours) (vals : NDArray)
    (hnd : 2 ≤ vals.shape.length)
    (ht : vals.shape.drop (vals.shape.length - 2) = [pn.az.length, pn.r.length]) :
    pn.extract vals = Except.ok
      ⟨vals.shape.take (vals.shape.length - 2) ++ [pn.ix.length, pn.nnear],
        (List.range (vals.shape.take (vals.shape.length - 2)).prod).flatMap
          (fun l => pn.ix.flatMap (fun row =>
            row.map (fun t =>
              vals.data.getD (l * (pn.az.length * pn.r.length) + t) 0)))⟩ := by
  rw [PolarNeighbours.extract, if_neg (by omega), if_neg (not_ne_iff.mpr ht)]

/-- C4: `extract` fails exactly when the input array has fewer than two
dimensions or its trailing two dimensions differ from (number of azimuths,
number of ranges); on any input satisfying both conditions it succeeds. -/
theorem verify_C4 (pn : PolarNeighbours) (vals : NDArray) :
    ((∃ msg, pn.extract vals = Except.error msg) ↔
      (vals.shape.length < 2 ∨
        vals.shape.drop (vals.shape.length - 2) ≠ [pn.az.length, pn.r.length])) ∧
    (2 ≤ vals.shape.length →
      vals.shape.drop (vals.shape.length - 2) = [pn.az.length, pn.r.length] →
      ∃ out, pn.extract vals = Except.ok out) := by
  rw [PolarNeighbours.extract]
  split_ifs with h1 h2
  · exact ⟨⟨fun _ => Or.inl h1, fun _ => ⟨_, rfl⟩⟩,
      fun hge _ => absurd h1 (by omega)⟩
  · exact ⟨⟨fun _ => Or.inr h2, fun _ => ⟨_, rfl⟩⟩,
      fun _ ht => absurd ht h2⟩
  · refine ⟨⟨fun h => ?_, fun h => ?_⟩, fun _ _ => ⟨_, rfl⟩⟩
    · rcases h with ⟨msg, hmsg⟩
      simp at hmsg
    · rcases h with h | h
      · exact absurd h h1
      · exact absurd h h2

theorem verify_C4_witness :
    ∃ out, PolarNeighbours.extract ⟨3, [], [], [], [], [], [], [], []⟩
      ⟨[0, 0], []⟩ = Except.ok out :=
  (verify_C4 ⟨3, [], [], [], [], [], [], [], []⟩ ⟨[0, 0], []⟩).2
    (by decide) (by decide)

/-- C1: for an index built over a grid with `A` azimuths and `R` ranges
(centroid arrays of length `A * R`), equally many query x and y coordinates
and a neighbour count `1 ≤ k ≤ A * R`, `extract` succeeds on every input
array whose trailing two dimensions are `(A, R)` and returns an array whose
shape is the input's leading dimensions followed by
`(number of query points, k)`, with matching flattened data size. -/
theorem verify_C1 (r az binx biny x y : List ℚ) (k : ℕ) (vals : NDArray)
    (pn : PolarNeighbours)
    (hpn : pn = PolarNeighbours.init r az binx biny x y k)
    (hbx : binx.length = az.length * r.length)
    (hby : biny.length = az.length * r.length)
    (hxy : x.length = y.length)
    (hk1 : 1 ≤ k) (hk : k ≤ az.length * r.length)
    (hnd : 2 ≤ vals.shape.length)
    (ht : vals.shape.drop (vals.shape.length - 2) = [az.length, r.length]) :
    ∃ out, pn.extract vals = Except.ok out ∧
      out.shape = vals.shape.take (vals.shape.length - 2) ++ [x.length, k] ∧
      out.data.length =
        (vals.shape.take (vals.shape.length - 2)).prod * (x.length * k) := by
  subst hpn
  have hxlen : (PolarNeighbours.init r az binx biny x y k).ix.length =
      x.length := by
    rw [init_ix_length, hxy, min_self]
  have hrowlen : ∀ row ∈ (PolarNeighbours.init r az binx biny x y k).ix,
      row.length = k := by
    intro row hrow
    rw [init_ix_row_length r az binx biny x y k hrow, hbx, hby, min_self]
    exact min_eq_left hk
  have hext := extract_ok (PolarNeighbours.init r az binx biny x y k) vals hnd
    (by rw [init_az, init_r]; exact ht)
  refine ⟨_, hext, ?_, ?_⟩
  · rw [hxlen, init_nnear]
  · have hinner : ∀ l ∈ List.range
        (vals.shape.take (vals.shape.length - 2)).prod,
        ((PolarNeighbours.init r az binx biny x y k).ix.flatMap (fun row =>
          row.map (fun t => vals.data.getD
            (l * ((PolarNeighbours.init r az binx biny x y k).az.length *
              (PolarNeighbours.init r az binx biny x y k).r.length) + t) 0))).length =
          x.length * k := by
      intro l _
      rw [length_flatMap_const _ _ k, hxlen]
      intro row hrow
      rw [List.length_map]
      exact hrowlen row hrow
    rw [length_flatMap_const _ _ (x.length * k) hinner, List.length_range]

/-- C2: the gather of `extract` uses the row-major (azimuth-major,
range-minor) flattening of the trailing two dimensions: if the stored
flattened neighbour index for query point `i`, slot `j` decomposes as
`a * R + rg` with `rg < R`, then the output value at `(l, i, j)` is the
input value at polar position `(a, rg)` of leading slice `l`. -/
theorem verify_C2 (r az binx biny x y : List ℚ) (k : ℕ) (vals out : NDArray)
    (pn : PolarNeighbours)
    (hpn : pn = PolarNeighbours.init r az binx biny x y k)
    (hbx : binx.length = az.length * r.length)
    (hby : biny.length = az.length * r.length)
    (hk : k ≤ az.length * r.length)
    (hout : pn.extract vals = Except.ok out)
    (l i j a rg : ℕ)
    (hl : l < (vals.shape.take (vals.shape.length - 2)).prod)
    (hi : i < pn.ix.length) (hj : j < k)
    (hdec : (pn.ix.getD i []).getD j 0 = a * r.length + rg)
    (hrg : rg < r.length) :
    out.data.getD ((l * pn.ix.length + i) * k + j) 0 =
      vals.data.getD ((l * az.length + a) * r.length + rg) 0 := by
  subst hpn
  have hnd : ¬ vals.shape.length < 2 := by
    intro hcon
    rw [PolarNeighbours.extract, if_pos hcon] at hout
    exact absurd hout (by simp)
  have htne : ¬ vals.shape.drop (vals.shape.length - 2) ≠
      [(PolarNeighbours.init r az binx biny x y k).az.length,
        (PolarNeighbours.init r az binx biny x y k).r.length] := by
    intro hcon
    rw [PolarNeighbours.extract, if_neg hnd, if_pos hcon] at hout
    exact absurd hout (by simp)
  have hext := extract_ok (PolarNeighbours.init r az binx biny x y k) vals
    (by omega) (not_ne_iff.mp htne)
  rw [hout] at hext
  have houteq := Except.ok.inj hext
  have hdata : out.data = (List.range
      (vals.shape.take (vals.shape.length - 2)).prod).flatMap
      (fun l2 => (PolarNeighbours.init r az binx biny x y k).ix.flatMap
        (fun row => row.map (fun t =>
          vals.data.getD (l2 * (az.length * r.length) + t) 0))) := by
    rw [houteq]
    rfl
  have hrows : ∀ row ∈ (PolarNeighbours.init r az binx biny x y k).ix,
      row.length = k := by
    intro row hrow
    rw [init_ix_row_length r az binx biny x y k hrow, hbx, hby, min_self]
    exact min_eq_left hk
  have hmaprows : ∀ (l2 : ℕ) (row : List ℕ),
      row ∈ (PolarNeighbours.init r az binx biny x y k).ix →
      (row.map (fun t =>
        vals.data.getD (l2 * (az.length * r.length) + t) 0)).length = k := by
    intro l2 row hrow
    rw [List.length_map]
    exact hrows row hrow
  have houter : ∀ l2 ∈ List.range
      (vals.shape.take (vals.shape.length - 2)).prod,
      ((PolarNeighbours.init r az binx biny x y k).ix.flatMap
        (fun row => row.map (fun t =>
          vals.data.getD (l2 * (az.length * r.length) + t) 0))).length =
      (PolarNeighbours.init r az binx biny x y k).ix.length * k := by
    intro l2 _
    exact length_flatMap_const _ _ k (hmaprows l2)
  rw [hdata]
  have harith1 : (l * (PolarNeighbours.init r az binx biny x y k).ix.length
      + i) * k + j =
      l * ((PolarNeighbours.init r az binx biny x y k).ix.length * k) +
        (i * k + j) := by ring
  rw [harith1]
  have hlt2 : i * k + j <
      (PolarNeighbours.init r az binx biny x y k).ix.length * k := by
    calc i * k + j < i * k + k := by omega
    _ = (i + 1) * k := by ring
    _ ≤ (PolarNeighbours.init r az binx biny x y k).ix.length * k :=
      Nat.mul_le_mul_right k hi
  rw [getD_flatMap_const _ _ _ houter l (i * k + j)
    (by rw [List.length_range]; exact hl) hlt2 0 0]
  have hrl : (List.range
      ((vals.shape.take (vals.shape.length - 2)).prod)).getD l 0 = l := by
    have hlen : l < (List.range
        ((vals.shape.take (vals.shape.length - 2)).prod)).length := by
      rw [List.length_range]; exact hl
    rw [List.getD_eq_getElem _ _ hlen]
    exact List.getElem_range l hlen
  rw [hrl]
  rw [getD_flatMap_const _ _ _
    (fun row hrow => hmaprows l row hrow) i j hi hj [] 0]
  have hrowmem : (PolarNeighbours.init r az binx biny x y k).ix.getD i [] ∈
      (PolarNeighbours.init r az binx biny x y k).ix := by
    rw [List.getD_eq_getElem _ _ hi]
    exact List.getElem_mem _
  rw [getD_map_of_lt _ _ j (by rw [hrows _ hrowmem]; exact hj) 0 0]
  rw [hdec]
  congr 1
  ring

/-- C5: for every constructed index and every query point, the stored row of
neighbour distances is non-decreasing, and the index matrix is ordered to
match the distance matrix: the `j`-th stored distance is exactly the
distance from the query point to the bin named by the `j`-th stored index.
Distances are stored squared here, which preserves the ordering claims
exactly (the square root is monotone). -/
theorem verify_C5 (r az binx biny x y : List ℚ) (k i : ℕ)
    (pn : PolarNeighbours)
    (hpn : pn = PolarNeighbours.init r az binx biny x y k)
    (hi : i < pn.distSq.length) :
    List.Pairwise (· ≤ ·) (pn.distSq.getD i []) ∧
    ∀ j, j < (pn.ix.getD i []).length →
      (pn.distSq.getD i []).getD j 0 =
        sqDist ((binx.zip biny).getD ((pn.ix.getD i []).getD j 0) (0, 0))
          ((x.zip y).getD i (0, 0)) := by
  subst hpn
  have hi2 : i < min x.length y.length := by
    rw [init_distSq_length] at hi
    exact hi
  rw [init_distSq_getD r az binx biny x y k i hi2,
    init_ix_getD r az binx biny x y k i hi2]
  constructor
  · rw [List.pairwise_map]
    exact sorted_knnQuery _ _ _
  · intro j hj
    rw [List.length_map] at hj
    rw [getD_map_of_lt Prod.fst _ j hj (0, 0) 0,
      getD_map_of_lt Prod.snd _ j hj (0, 0) 0]
    have hmem : (knnQuery (binx.zip biny) ((x.zip y).getD i (0, 0)) k).getD j
        (0, 0) ∈ knnQuery (binx.zip biny) ((x.zip y).getD i (0, 0)) k := by
      rw [List.getD_eq_getElem _ _ hj]
      exact List.getElem_mem _
    exact (mem_knnQuery hmem).2

theorem verify_C5_witness :
    List.Pairwise (· ≤ ·)
      ((PolarNeighbours.init [1] [1] [0] [0] [0] [0] 1).distSq.getD 0 []) ∧
    ∀ j, j < ((PolarNeighbours.init [1] [1] [0] [0] [0] [0] 1).ix.getD 0
        []).length →
      ((PolarNeighbours.init [1] [1] [0] [0] [0] [0] 1).distSq.getD 0
          []).getD j 0 =
        sqDist ((([(0 : ℚ)]).zip ([(0 : ℚ)])).getD
            (((PolarNeighbours.init [1] [1] [0] [0] [0] [0] 1).ix.getD 0
              []).getD j 0) (0, 0))
          ((([(0 : ℚ)]).zip ([(0 : ℚ)])).getD 0 (0, 0)) :=
  verify_C5 [1] [1] [0] [0] [0] [0] 1 0 _ rfl (by decide)

/-- C3 counterexample: the constructor performs no validation at all —
called with query coordinate arrays of different lengths (2 x-values, 1
y-value) it completes normally and builds an index over the single zipped
query point instead of failing; no error of any kind is raised (the source
`__init__` contains no check and no raise statement, and `InvalidShapeError`
does not exist in the source). -/
theorem verify_C3_counterexample :
    (PolarNeighbours.init [1] [1, 2] [0, 1] [0, 1] [0, 1] [0] 1).x.length ≠
      (PolarNeighbours.init [1] [1, 2] [0, 1] [0, 1] [0, 1] [0] 1).y.length ∧
    (PolarNeighbours.init [1] [1, 2] [0, 1] [0, 1] [0, 1] [0] 1).ix.length
      = 1 ∧
    (PolarNeighbours.init [1] [1, 2] [0, 1] [0, 1] [0, 1] [0] 1).distSq.length
      = 1 := by
  refine ⟨by decide, ?_, ?_⟩
  · rw [init_ix_length]; decide
  · rw [init_distSq_length]; decide

/-- C3 amended: construction never fails and performs no validation: query
x/y arrays of different lengths are silently truncated to the shorter length
by positional pairing, and a neighbour count exceeding the bin count is
accepted (each neighbour row simply holds `min k (number of bins)`
entries); the requested neighbour count is stored unchanged. -/
theorem verify_C3_amended (r az binx biny x y : List ℚ) (k : ℕ) :
    (PolarNeighbours.init r az binx biny x y k).ix.length =
      min x.length y.length ∧
    (PolarNeighbours.init r az binx biny x y k).distSq.length =
      min x.length y.length ∧
    (∀ row ∈ (PolarNeighbours.init r az binx biny x y k).ix,
      row.length = min k (min binx.length biny.length)) ∧
    (PolarNeighbours.init r az binx biny x y k).nnear = k :=
  ⟨init_ix_length r az binx biny x y k, init_distSq_length r az binx biny x y k,
    fun _ hrow => init_ix_row_length r az binx biny x y k hrow, rfl⟩

theorem verify_C3_amended_witness :
    (PolarNeighbours.init [1] [1] [0] [0] [0, 1] [0] 5).ix.length =
      min ([(0 : ℚ), 1]).length ([(0 : ℚ)]).length ∧
    (PolarNeighbours.init [1] [1] [0] [0] [0, 1] [0] 5).distSq.length =
      min ([(0 : ℚ), 1]).length ([(0 : ℚ)]).length ∧
    (∀ row ∈ (PolarNeighbours.init [1] [1] [0] [0] [0, 1] [0] 5).ix,
      row.length = min 5 (min ([(0 : ℚ)]).length ([(0 : ℚ)]).length)) ∧
    (PolarNeighbours.init [1] [1] [0] [0] [0, 1] [0] 5).nnear = 5 :=
  verify_C3_amended [1] [1] [0] [0] [0, 1] [0] 5

/-- C10: `extract` is a pure function: the source method assigns no
attribute of the object and does not write into the input array (it only
rebinds a local to a reshaped view), so in this embedding it is a function
of the index state and the input array.  Its result depends only on the
stored index matrix, the stored neighbour count and the grid extents, and
equal input arrays yield equal outputs — so it can be called repeatedly over
many data snapshots without rebuilding the index, and no stored field
(`nnear, az, r, x, y, binx, biny, distSq, ix`) influences or is influenced by
anything beyond those read fields. -/
theorem verify_C10 (pn1 pn2 : PolarNeighbours) (vals1 vals2 : NDArray)
    (hix : pn1.ix = pn2.ix) (hnn : pn1.nnear = pn2.nnear)
    (ha : pn1.az.length = pn2.az.length) (hr : pn1.r.length = pn2.r.length)
    (hsh : vals1.shape = vals2.shape) (hd : vals1.data = vals2.data) :
    pn1.extract vals1 = pn2.extract vals2 := by
  rw [PolarNeighbours.extract, PolarNeighbours.extract, hix, hnn, ha, hr,
    hsh, hd]

theorem verify_C10_witness :
    PolarNeighbours.extract ⟨1, [1], [1], [0], [0], [0], [0], [[0]], [[0]]⟩
        ⟨[1, 1], [3]⟩ =
      PolarNeighbours.extract ⟨1, [1], [1], [9], [9], [9], [9], [[5]], [[0]]⟩
        ⟨[1, 1], [3]⟩ :=
  verify_C10 _ _ _ _ rfl rfl rfl rfl rfl rfl

theorem verify_C1_witness :
    ∃ out, (PolarNeighbours.init [1] [1, 2] [0, 1] [0, 1] [5] [5] 1).extract
        (NDArray.mk [2, 1] [7, 8]) = Except.ok out ∧
      out.shape = (NDArray.mk [2, 1] [7, 8]).shape.take
          ((NDArray.mk [2, 1] [7, 8]).shape.length - 2) ++
          [([(5 : ℚ)]).length, 1] ∧
      out.data.length = ((NDArray.mk [2, 1] [7, 8]).shape.take
          ((NDArray.mk [2, 1] [7, 8]).shape.length - 2)).prod *
          (([(5 : ℚ)]).length * 1) :=
  verify_C1 [1] [1, 2] [0, 1] [0, 1] [5] [5] 1 (NDArray.mk [2, 1] [7, 8]) _
    rfl (by decide) (by decide) (by decide) (by decide) (by decide)
    (by decide) (by decide)

theorem verify_C2_witness :
    (NDArray.mk [1, 1] [5]).data.getD
        ((0 * (PolarNeighbours.init [1, 2] [10, 20] [0, 1, 2, 3] [0, 1, 2, 3]
            [0] [0] 1).ix.length + 0) * 1 + 0) 0 =
      (NDArray.mk [2, 2] [5, 6, 7, 8]).data.getD
        ((0 * ([(10 : ℚ), 20]).length + 0) * ([(1 : ℚ), 2]).length + 0) 0 := by
  have hr1 : List.range 1 = [0] := rfl
  have hout0 : (PolarNeighbours.init [1, 2] [10, 20] [0, 1, 2, 3] [0, 1, 2, 3]
      [0] [0] 1).extract (NDArray.mk [2, 2] [5, 6, 7, 8]) =
      Except.ok (NDArray.mk [1, 1] [5]) := by
    norm_num [PolarNeighbours.extract, PolarNeighbours.init, knnQuery,
      sortByDist, insertByDist, sqDist, hr1, List.flatMap_cons,
      List.flatMap_nil]
  have hdec0 : ((PolarNeighbours.init [1, 2] [10, 20] [0, 1, 2, 3] [0, 1, 2, 3]
      [0] [0] 1).ix.getD 0 []).getD 0 0 = 0 * ([(1 : ℚ), 2]).length + 0 := by
    norm_num [PolarNeighbours.init, knnQuery, sortByDist, insertByDist, sqDist]
  exact verify_C2 [1, 2] [10, 20] [0, 1, 2, 3] [0, 1, 2, 3] [0] [0] 1
    (NDArray.mk [2, 2] [5, 6, 7, 8]) (NDArray.mk [1, 1] [5]) _ rfl
    (by decide) (by decide) (by decide) hout0 0 0 0 0 0 (by decide)
    (by decide) (by decide) hdec0 (by decide)
